import Mathlib

/-
Verification of the core algorithm of scripts/eltr_polisher.py (centroFlye
ELTR polisher): position resolution (map_pos2read), per-position pool
building and representative selection (export_read_units), assembly of
polished sequences across iterations (read_polishing), convergence
reporting (compare_polished_sequences) and result export (export_results).

The embedding is shallow: Python dicts become association lists or
finitely-presented functions, file contents become oracle functions,
and the external tools (flye, edlib) stay abstract parameters.
-/

namespace EltrPolisher

/-- One read of the input: its identifier, its optional genomic placement
(`read_placement[r_id]`, `None` becomes `none`), and its motif alignment
reduced to the list of aligned substrings (the `r_al` field of each
occurrence record, which is the only field the core reads). The resolver
iterates over reads in this list order, mirroring dict iteration order. -/
structure Read where
  r_id : String
  placement : Option Int
  ma : List String
deriving DecidableEq

/-- Occurrence indices contributed by one read, and the window filter,
embedding the body of the `for r_id, pos in self.read_placement.items()`
loop of `ELTR_Polisher.map_pos2read`: a read with `None` placement or with
`pos > max_pos` yields nothing; an anchored read (`pos == min_pos` or
`pos + len(ma) == max_pos`) scans `range(len(ma))`, any other read scans
`range(1, len(ma) - 1)`; an index survives iff
`min_pos <= pos + i <= max_pos`. -/
def resolveRead (minPos maxPos : Int) (r : Read) : List (Int × String × Nat) :=
  match r.placement with
  | none => []
  | some pos =>
    if pos > maxPos then []
    else
      ((if pos = minPos ∨ pos + (r.ma.length : Int) = maxPos then
          List.range r.ma.length
        else
          List.range' 1 (r.ma.length - 2)).filter
          (fun (i : Nat) => decide (minPos ≤ pos + (i : Int)) && decide (pos + (i : Int) ≤ maxPos))).map
        (fun (i : Nat) => (pos + (i : Int), r.r_id, i))

/-- Embedding of `ELTR_Polisher.map_pos2read`. The Python function returns a
`defaultdict(list)` from position to occurrence list; here the same data is
the flat list of accepted `(position, (read_id, local_index))` triples in
insertion order, from which each position's pool is the order-preserving
slice with that position (`poolAt`). -/
def map_pos2read (reads : List Read) (minPos maxPos : Int) : List (Int × String × Nat) :=
  (reads.map (resolveRead minPos maxPos)).flatten

/-- The pool of one genomic position: the occurrences assigned to it, in
insertion order (what `pos2read[q]` holds after `map_pos2read`). -/
def poolAt (occs : List (Int × String × Nat)) (q : Int) : List (String × Nat) :=
  occs.filterMap (fun t => if t.1 = q then some t.2 else none)

/-- Embedding of the `max_pos` resolution in `ELTR_Polisher.__init__`:
`params.max_pos` is `math.inf` (here `none`) or an integer; when infinite it
is recomputed as `max_pos = 0` followed by
`max_pos = max(max_pos, pos + len(ma))` over every placed read; one loop
step is `maxPosStep`. -/
def maxPosStep (acc : Int) (r : Read) : Int :=
  match r.placement with
  | none => acc
  | some p => max acc (p + (r.ma.length : Int))

/-- Resolution of `max_pos` in `ELTR_Polisher.__init__`, folding
`maxPosStep` from 0 when `params.max_pos` is infinite. -/
def resolve_max_pos (paramMaxPos : Option Int) (reads : List Read) : Int :=
  match paramMaxPos with
  | some m => m
  | none => reads.foldl maxPosStep 0

/-- Modelled from the spec (refinement target, not source code): the claim's
words resolve an unbounded `max_pos` to "the maximum position reachable by
any placed read", with no clamping at 0; `none` when no read is placed. -/
def claimed_max_reachable (reads : List Read) : Option Int :=
  match reads.filterMap (fun r => r.placement.map (fun p => p + (r.ma.length : Int))) with
  | [] => none
  | x :: xs => some (xs.foldl max x)

/-- Modelled from the spec (refinement target, not source code): the claim's
words make the resolver fail with `ConfigurationError` whenever
`max_pos < min_pos` and return the pool otherwise. The source code of
`map_pos2read` contains no such check. -/
def claimed_resolver (reads : List Read) (minPos maxPos : Int) :
    Except String (List (Int × String × Nat)) :=
  if maxPos < minPos then Except.error "ConfigurationError"
  else Except.ok (map_pos2read reads minPos maxPos)

/-- Lexicographic strict order on character lists, by code point: the order
Python uses to compare strings (and hence to sort dict keys). Written as a
structural recursion so that it evaluates inside the kernel. -/
def listLtb : List Char → List Char → Bool
  | [], [] => false
  | [], _ :: _ => true
  | _ :: _, [] => false
  | a :: as, b :: bs =>
    if a < b then true else if b < a then false else listLtb as bs

/-- Non-strict string comparison used to embed Python `sorted` on strings. -/
def strLeb (a b : String) : Bool := !(listLtb b.data a.data)

/-- Cleaning of one aligned substring, embedding
`r_al.upper().replace('-', '')` from `ELTR_Polisher.export_read_units`:
upper-case every character and drop the gap symbol. -/
def cleanSeq (s : String) : String :=
  String.mk ((s.data.map Char.toUpper).filter (fun c => c ≠ '-'))

/-- FASTA entry name built in `export_read_units`:
the f-string `gen_pos={pos}|r_id={r_id}|r_pos={p}`. -/
def mkKey (pos : Int) (rid : String) (p : Nat) : String :=
  "gen_pos=" ++ toString pos ++ "|r_id=" ++ rid ++ "|r_pos=" ++ toString p

/-- Python dict assignment `d[k] = v` on an association list: an existing
key keeps its position and gets the new value, a new key is appended. -/
def dictInsert (d : List (String × String)) (k v : String) : List (String × String) :=
  if d.any (fun e => e.1 = k) then
    d.map (fun e => if e.1 = k then (k, v) else e)
  else d ++ [(k, v)]

/-- The `seqs` dict built by `export_read_units` for one position: for each
`(r_id, p)` of the pool, in pool order, `seqs[key] = cleaned r_al` where the
occurrence record is `motif_alignments[r_id][p]` (here `mas r_id`, indexed
with an irrelevant default since the pool only holds in-range indices). -/
def buildSeqs (mas : String → List String) (pos : Int)
    (pool : List (String × Nat)) : List (String × String) :=
  pool.foldl
    (fun d rp => dictInsert d (mkKey pos rp.1 rp.2) (cleanSeq ((mas rp.1).getD rp.2 "")))
    []

/-- Embedding of `statistics.median_high`: sort the data and take the
element at index `n / 2` (the upper of the two middle elements when `n` is
even). The Python function raises on empty data; the default 0 is never
used under the non-empty hypotheses of the theorems below. -/
def medianHigh (l : List Nat) : Nat :=
  (l.insertionSort (fun a b => a ≤ b)).getD (l.length / 2) 0

/-- Embedding of iterating over `sorted(seqs.keys())`: the entries of the
dict sorted by key in Python string order. -/
def sortByKey (seqs : List (String × String)) : List (String × String) :=
  seqs.insertionSort (fun a b => strLeb a.1 b.1 = true)

/-- Per-position body of `ELTR_Polisher.export_read_units`: build the
candidate dict, compute the high median of the candidate lengths, and scan
candidates in sorted-key order for the first one whose length equals it
(the representative written to `median_read_unit.fasta`, keyed by its
`template_read` name). Returns `none` exactly when the scan fails, which is
the state in which the Python asserts after the loop would fail
(`template_read` still `None`). -/
def export_read_units_pos (mas : String → List String) (pos : Int)
    (pool : List (String × Nat)) : Option (String × String) :=
  (sortByKey (buildSeqs mas pos pool)).find?
    (fun e => e.2.length = medianHigh ((buildSeqs mas pos pool).map (fun x => x.2.length)))

/-- Filesystem oracle for `read_polishing`: `art p i` is the content of
`pos_{p}/polished_{i}.fasta` when that file exists, `none` when it does not
(in which case `read_bio_seq` raises). -/
abbrev Artifacts := Int → Nat → Option String

/-- Inner loop of one iteration of `ELTR_Polisher.read_polishing`: for every
position of `read_unit_filenames`, in order, read the iteration-`i` polished
artifact into the `polished_seqs` dict (which persists across iterations, so
it is threaded through). A missing file aborts with the iteration and the
position, as the raised exception would. -/
def fillPolished (art : Artifacts) (i : Nat) :
    List Int → (Int → Option String) → Except (Nat × Int) (Int → Option String)
  | [], d => Except.ok d
  | p :: ps, d =>
    match art p i with
    | none => Except.error (i, p)
    | some s => fillPolished art i ps (fun q => if q = p then some s else d q)

/-- List-comprehension `[polished_seqs[pos] for pos in range(min_pos, max_pos + 1)]`:
looks each position up in order and aborts at the first position absent from
the dict, as the raised `KeyError` would. -/
def gatherSeqs (d : Int → Option String) : List Int → Except Int (List String)
  | [] => Except.ok []
  | p :: ps =>
    match d p with
    | none => Except.error p
    | some s => (gatherSeqs d ps).map (fun rest => s :: rest)

/-- Python `range(a, b + 1)` over integers, in ascending order. -/
def intRange (a b : Int) : List Int :=
  (List.range (b + 1 - a).toNat).map (fun (k : Nat) => a + (k : Int))

/-- Python `min` over a list (the keys of a dict); the default for the empty
list stands in for the `ValueError` that `min([])` raises and is never used
under the non-emptiness hypotheses of the theorems below. -/
def listMin : List Int → Int
  | [] => 0
  | x :: xs => xs.foldl min x

/-- Python `max` over a list, same conventions as `listMin`. -/
def listMax : List Int → Int
  | [] => 0
  | x :: xs => xs.foldl max x

/-- Iteration loop of `ELTR_Polisher.read_polishing` over the remaining
iteration numbers, threading the `polished_seqs` dict and accumulating
`final_sequences` as an association list in iteration order. -/
def read_polishing_go (art : Artifacts) (keys rangePs : List Int) :
    List Nat → (Int → Option String) → Except (Nat × Int) (List (Nat × String))
  | [], _ => Except.ok []
  | i :: is, d =>
    match fillPolished art i keys d with
    | Except.error e => Except.error e
    | Except.ok d' =>
      match gatherSeqs d' rangePs with
      | Except.error p => Except.error (i, p)
      | Except.ok segs =>
        (read_polishing_go art keys rangePs is d').map
          (fun rest => (i, String.join segs) :: rest)

/-- Embedding of `ELTR_Polisher.read_polishing`: `keys` are the positions of
`read_unit_filenames` (the pooled positions), `min_pos`/`max_pos` are their
minimum and maximum, and for each iteration `i` in `1..num_iters` the
iteration's full-locus sequence is the join of the per-position artifacts
over `range(min_pos, max_pos + 1)`. -/
def read_polishing (keys : List Int) (art : Artifacts) (numIters : Nat) :
    Except (Nat × Int) (List (Nat × String)) :=
  read_polishing_go art keys (intRange (listMin keys) (listMax keys))
    (List.range' 1 numIters) (fun _ => none)

/-- Run-collapsing on character lists, structural so it kernel-evaluates. -/
def compressRuns : List Char → List Char
  | [] => []
  | [c] => [c]
  | a :: b :: rest =>
    if a = b then compressRuns (b :: rest) else a :: compressRuns (b :: rest)

/-- Modelled from the spec: `compress_homopolymer` lives in `utils/bio`,
which is not under src/; the spec defines it as collapsing runs of identical
symbols into a single symbol. -/
def compress_homopolymer (s : String) : String :=
  String.mk (compressRuns s.data)

/-- Dict lookup `final_sequences[i]`. -/
def lookupIter (fs : List (Nat × String)) (i : Nat) : Option String :=
  (fs.find? (fun e => e.1 = i)).map (fun e => e.2)

/-- Embedding of `ELTR_Polisher.export_results`: for each iteration `i` in
`1..num_iters`, two written sequence files, given as
(file name, record name, record sequence) triples in write order: the raw
full-locus sequence and its homopolymer-compressed form. -/
def export_results (fs : List (Nat × String)) (numIters : Nat) :
    List (String × String × String) :=
  ((List.range' 1 numIters).map (fun i =>
      [("final_sequence_" ++ toString i ++ ".fasta",
        "polished_repeat_" ++ toString i, (lookupIter fs i).getD ""),
       ("final_sequence_hpc_" ++ toString i ++ ".fasta",
        "polished_repeat_" ++ toString i,
        compress_homopolymer ((lookupIter fs i).getD ""))])).flatten

/-- Embedding of `ELTR_Polisher.compare_polished_sequences`: `edlib.align`
is an external black box, abstracted as a parameter `al`; the report is the
list of entries written to `report.txt`, one per `i` in
`range(1, num_iters)`, each holding the pair index, the alignment of the raw
full-locus sequences `i` and `i + 1`, and the alignment of their
homopolymer-compressed forms. -/
def compare_polished_sequences {α : Type} (al : String → String → α)
    (fs : List (Nat × String)) (numIters : Nat) : List (Nat × α × α) :=
  (List.range' 1 (numIters - 1)).map (fun i =>
    (i, al ((lookupIter fs i).getD "") ((lookupIter fs (i + 1)).getD ""),
        al (compress_homopolymer ((lookupIter fs i).getD ""))
           (compress_homopolymer ((lookupIter fs (i + 1)).getD ""))))

/-- Characterization of the occurrences one read contributes: its placement
must be known and not beyond `max_pos`; the index must be in range, the
absolute position inside the window; and either the read is anchored at a
window boundary (then every index is eligible) or the index is interior. -/
theorem mem_resolveRead {minPos maxPos : Int} {r : Read} {t : Int × String × Nat} :
    t ∈ resolveRead minPos maxPos r ↔
      ∃ (p : Int) (i : Nat), r.placement = some p ∧ p ≤ maxPos ∧
        t = (p + (i : Int), r.r_id, i) ∧ i < r.ma.length ∧
        minPos ≤ p + (i : Int) ∧ p + (i : Int) ≤ maxPos ∧
        (p = minPos ∨ p + (r.ma.length : Int) = maxPos ∨
          (1 ≤ i ∧ i + 1 < r.ma.length)) := by
  cases hpl : r.placement with
  | none => simp [resolveRead, hpl]
  | some pos =>
    by_cases hgt : pos > maxPos
    · simp only [resolveRead, hpl, if_pos hgt, List.not_mem_nil, false_iff, not_exists]
      intro p i h
      simp only [Option.some.injEq] at h
      omega
    · by_cases hanch : pos = minPos ∨ pos + (r.ma.length : Int) = maxPos
      · simp only [resolveRead, hpl, if_neg hgt, if_pos hanch, List.mem_map,
          List.mem_filter, List.mem_range, Bool.and_eq_true, decide_eq_true_eq,
          Option.some.injEq]
        constructor
        · rintro ⟨i, ⟨hi, hlo, hhi⟩, rfl⟩
          exact ⟨pos, i, rfl, by omega, rfl, hi, hlo, hhi, by tauto⟩
        · rintro ⟨p, i, rfl, hple, rfl, hi, hlo, hhi, hd⟩
          exact ⟨i, ⟨hi, hlo, hhi⟩, rfl⟩
      · simp only [resolveRead, hpl, if_neg hgt, if_neg hanch, List.mem_map,
          List.mem_filter, List.mem_range', Bool.and_eq_true, decide_eq_true_eq,
          Option.some.injEq]
        push_neg at hanch
        constructor
        · rintro ⟨i, ⟨⟨k, hk, rfl⟩, hlo, hhi⟩, rfl⟩
          exact ⟨pos, 1 + 1 * k, rfl, by omega, rfl, by omega, hlo, hhi,
            Or.inr (Or.inr ⟨by omega, by omega⟩)⟩
        · rintro ⟨p, i, rfl, hple, rfl, hi, hlo, hhi, hd⟩
          rcases hd with h1 | h2 | ⟨hi1, hi2⟩
          · exact absurd h1 hanch.1
          · exact absurd h2 hanch.2
          · exact ⟨i, ⟨⟨i - 1, by omega, by omega⟩, hlo, hhi⟩, rfl⟩

/-- Membership in the resolved occurrence list comes from some read. -/
theorem mem_map_pos2read {reads : List Read} {minPos maxPos : Int}
    {t : Int × String × Nat} :
    t ∈ map_pos2read reads minPos maxPos ↔
      ∃ r ∈ reads, t ∈ resolveRead minPos maxPos r := by
  simp only [map_pos2read, List.mem_flatten, List.mem_map]
  constructor
  · rintro ⟨l, ⟨r, hr, rfl⟩, ht⟩
    exact ⟨r, hr, ht⟩
  · rintro ⟨r, hr, ht⟩
    exact ⟨resolveRead minPos maxPos r, ⟨r, hr, rfl⟩, ht⟩

/-- Membership in one position's pool is membership of the corresponding
triple in the resolved occurrence list. -/
theorem mem_poolAt {occs : List (Int × String × Nat)} {q : Int} {x : String × Nat} :
    x ∈ poolAt occs q ↔ (q, x) ∈ occs := by
  simp only [poolAt, List.mem_filterMap]
  constructor
  · rintro ⟨t, ht, hx⟩
    by_cases h : t.1 = q
    · simp only [if_pos h] at hx
      cases hx
      have : t = (q, t.2) := by
        rw [Prod.ext_iff]
        exact ⟨h, rfl⟩
      rwa [this] at ht
    · simp [if_neg h] at hx
  · intro h
    exact ⟨(q, x), h, by simp⟩

/-- C2, counterexample. The claim states that a read anchored at a window
boundary contributes only the corresponding edge occurrence among its own
first/last occurrences: anchored at `min_pos` only, its last occurrence is
to be excluded. In the code an anchored read scans all of `range(len(ma))`:
the read "r" placed at 0 with 3 occurrences, window `[0, 10]`, is anchored
at `min_pos = 0` only (its span ends at 3, not 10), yet its last occurrence
(local index 2) is emitted at position 2. -/
theorem c2_counterexample :
    ((2 : Int), "r", 2) ∈ map_pos2read [⟨"r", some 0, ["A", "C", "G"]⟩] 0 10 ∧
      (0 : Int) = 0 ∧ (0 : Int) + 3 ≠ 10 := by
  refine ⟨?_, rfl, by decide⟩
  decide

/-- C2, amended. A placed read with `pos <= max_pos` contributes exactly the
occurrences `pos + i` that lie inside the window, where `i` ranges over all
local indices when the read is anchored at a boundary (`pos = min_pos` or
`pos + len(ma) = max_pos`) -- including both its first and its last
occurrence -- and only over interior indices `1 .. len(ma) - 2` otherwise;
a read not anchored at either boundary never contributes its own first or
last occurrence. -/
theorem c2_amended_boundary_occurrences (reads : List Read) (minPos maxPos : Int)
    (t : Int × String × Nat) :
    t ∈ map_pos2read reads minPos maxPos ↔
      ∃ r ∈ reads, ∃ (p : Int) (i : Nat),
        r.placement = some p ∧ p ≤ maxPos ∧
        t = (p + (i : Int), r.r_id, i) ∧ i < r.ma.length ∧
        minPos ≤ p + (i : Int) ∧ p + (i : Int) ≤ maxPos ∧
        (p = minPos ∨ p + (r.ma.length : Int) = maxPos ∨
          (1 ≤ i ∧ i + 1 < r.ma.length)) := by
  rw [mem_map_pos2read]
  constructor
  · rintro ⟨r, hr, ht⟩
    exact ⟨r, hr, mem_resolveRead.mp ht⟩
  · rintro ⟨r, hr, hrest⟩
    exact ⟨r, hr, mem_resolveRead.mpr hrest⟩

/-- C2, witness for the amended characterization at a concrete occurrence:
the read "r" anchored at `min_pos = 0` contributes its last occurrence,
local index 2, at position 2. -/
theorem c2_amended_boundary_occurrences_witness :
    ((2 : Int), "r", 2) ∈ map_pos2read [⟨"r", some 0, ["A", "C", "G"]⟩] 0 10 ↔
      ∃ r ∈ [(⟨"r", some 0, ["A", "C", "G"]⟩ : Read)], ∃ (p : Int) (i : Nat),
        r.placement = some p ∧ p ≤ 10 ∧
        ((2 : Int), "r", 2) = (p + (i : Int), r.r_id, i) ∧ i < r.ma.length ∧
        (0 : Int) ≤ p + (i : Int) ∧ p + (i : Int) ≤ 10 ∧
        (p = 0 ∨ p + (r.ma.length : Int) = 10 ∨ (1 ≤ i ∧ i + 1 < r.ma.length)) :=
  c2_amended_boundary_occurrences [⟨"r", some 0, ["A", "C", "G"]⟩] 0 10 (2, "r", 2)

/-- C4, counterexample. The claim makes the resolver fail with
`ConfigurationError` whenever `max_pos < min_pos`; the code of
`map_pos2read` contains no bounds check and no raise at all: on the window
`[5, 3]` the claimed resolver errors while the code's resolver returns the
empty pool (a value, not a failure). -/
theorem c4_counterexample :
    claimed_resolver [⟨"r", some 2, ["A", "C", "G", "T"]⟩] 5 3 =
        Except.error "ConfigurationError" ∧
      map_pos2read [⟨"r", some 2, ["A", "C", "G", "T"]⟩] 5 3 = [] := by
  constructor
  · rfl
  · decide

/-- C4, amended. The resolver never fails: for every input it produces a
PositionPool with no side effects, and whenever `max_pos < min_pos` that
pool is empty (no occurrence can satisfy `min_pos <= pos + i <= max_pos`). -/
theorem c4_amended_empty_window (reads : List Read) (minPos maxPos : Int)
    (h : maxPos < minPos) :
    map_pos2read reads minPos maxPos = [] := by
  rw [map_pos2read, List.flatten_eq_nil_iff]
  intro l hl
  obtain ⟨r, hr, rfl⟩ := List.mem_map.mp hl
  rcases hl : resolveRead minPos maxPos r with _ | ⟨t, ts⟩
  · rfl
  · exfalso
    have ht : t ∈ resolveRead minPos maxPos r := by rw [hl]; exact List.mem_cons_self t ts
    obtain ⟨p, i, -, -, -, -, hlo, hhi, -⟩ := mem_resolveRead.mp ht
    omega

/-- C4, witness for the amended theorem at a concrete input. -/
theorem c4_amended_empty_window_witness :
    map_pos2read [⟨"r", some 2, ["A", "C", "G", "T"]⟩] 5 3 = [] :=
  c4_amended_empty_window [⟨"r", some 2, ["A", "C", "G", "T"]⟩] 5 3 (by decide)

/-- C5. A read whose placement is unknown, and a read whose placement start
exceeds `max_pos`, contributes no occurrence to any pool: if every read
carrying identifier `rid` is of one of those two kinds, no occurrence
labelled `rid` appears anywhere in the resolver output (read identifiers
are Python dict keys, hence unique). -/
theorem c5_skipped_reads_absent (reads : List Read) (minPos maxPos : Int)
    (rid : String)
    (h : ∀ r ∈ reads, r.r_id = rid →
      r.placement = none ∨ ∃ p : Int, r.placement = some p ∧ maxPos < p) :
    ∀ t ∈ map_pos2read reads minPos maxPos, t.2.1 ≠ rid := by
  intro t ht
  obtain ⟨r, hr, hres⟩ := mem_map_pos2read.mp ht
  obtain ⟨p, i, hp, hple, rfl, -⟩ := mem_resolveRead.mp hres
  intro hrid
  rcases h r hr hrid with hnone | ⟨p', hp', hgt⟩
  · rw [hp] at hnone
    cases hnone
  · rw [hp] at hp'
    cases hp'
    omega

/-- C5, witness: the unplaced read "u" and the read "v" placed beyond
`max_pos = 10` contribute nothing; only "w" does. -/
theorem c5_skipped_reads_absent_witness :
    (∀ t ∈ map_pos2read
        [⟨"u", none, ["A"]⟩, ⟨"v", some 20, ["A", "C", "G"]⟩,
         ⟨"w", some 1, ["A", "C", "G"]⟩] 0 10,
      t.2.1 ≠ "u") ∧
    (∀ t ∈ map_pos2read
        [⟨"u", none, ["A"]⟩, ⟨"v", some 20, ["A", "C", "G"]⟩,
         ⟨"w", some 1, ["A", "C", "G"]⟩] 0 10,
      t.2.1 ≠ "v") := by
  constructor
  · apply c5_skipped_reads_absent
    intro r hr hrid
    fin_cases hr <;> simp_all
  · apply c5_skipped_reads_absent
    intro r hr hrid
    fin_cases hr <;> simp_all

/-- C10. Every occurrence the resolver stores is stored under a key inside
the closed window, and the key is exactly the contributing read's placement
plus the occurrence's local index: membership of `(rid, i)` in the pool at
`q` gives `min_pos <= q <= max_pos` and a read of identifier `rid` with
placement `p` such that `q = p + i`. -/
theorem c10_pool_window_invariant (reads : List Read) (minPos maxPos : Int)
    (q : Int) (rid : String) (i : Nat)
    (h : (rid, i) ∈ poolAt (map_pos2read reads minPos maxPos) q) :
    minPos ≤ q ∧ q ≤ maxPos ∧
      ∃ r ∈ reads, r.r_id = rid ∧
        ∃ p : Int, r.placement = some p ∧ q = p + (i : Int) := by
  rw [mem_poolAt] at h
  obtain ⟨r, hr, hres⟩ := mem_map_pos2read.mp h
  obtain ⟨p, j, hp, hple, hteq, hj, hlo, hhi, -⟩ := mem_resolveRead.mp hres
  obtain ⟨hq, hid, hij⟩ : q = p + (j : Int) ∧ r.r_id = rid ∧ j = i := by
    have h1 := congrArg Prod.fst hteq
    have h2 := congrArg (fun z => z.2.1) hteq
    have h3 := congrArg (fun z => z.2.2) hteq
    simp at h1 h2 h3
    exact ⟨h1, h2.symm, h3.symm⟩
  subst hij
  exact ⟨by omega, by omega, r, hr, hid, p, hp, hq⟩

/-- C10, witness: the read "r" placed at 3 contributes its interior
occurrence 1 at key 4 = 3 + 1, inside the window. -/
theorem c10_pool_window_invariant_witness :
    (0 : Int) ≤ 4 ∧ (4 : Int) ≤ 10 ∧
      ∃ r ∈ [(⟨"r", some 3, ["A", "C", "G"]⟩ : Read)], r.r_id = "r" ∧
        ∃ p : Int, r.placement = some p ∧ (4 : Int) = p + ((1 : Nat) : Int) :=
  c10_pool_window_invariant [⟨"r", some 3, ["A", "C", "G"]⟩] 0 10 4 "r" 1 (by decide)

/-- Folding `maxPosStep` never decreases the accumulator. -/
theorem maxPosStep_foldl_le (reads : List Read) :
    ∀ acc : Int, acc ≤ reads.foldl maxPosStep acc := by
  induction reads with
  | nil => intro acc; simp
  | cons r rs ih =>
    intro acc
    refine le_trans ?_ (ih (maxPosStep acc r))
    unfold maxPosStep
    cases r.placement <;> simp

/-- Every placed read's reach bounds the fold from below. -/
theorem maxPosStep_foldl_ub (reads : List Read) :
    ∀ acc : Int, ∀ r ∈ reads, ∀ p : Int, r.placement = some p →
      p + (r.ma.length : Int) ≤ reads.foldl maxPosStep acc := by
  induction reads with
  | nil => intro acc r hr; cases hr
  | cons r0 rs ih =>
    intro acc r hr p hp
    rcases List.mem_cons.mp hr with rfl | htail
    · refine le_trans ?_ (maxPosStep_foldl_le rs (maxPosStep acc r))
      unfold maxPosStep
      rw [hp]
      exact le_max_right _ _
    · exact ih (maxPosStep acc r0) r htail p hp

/-- The fold either keeps its start value or lands on the reach of some
placed read of the list. -/
theorem maxPosStep_foldl_attained (reads : List Read) :
    ∀ acc : Int, reads.foldl maxPosStep acc = acc ∨
      ∃ r ∈ reads, ∃ p : Int, r.placement = some p ∧
        reads.foldl maxPosStep acc = p + (r.ma.length : Int) := by
  induction reads with
  | nil => intro acc; left; rfl
  | cons r0 rs ih =>
    intro acc
    rcases ih (maxPosStep acc r0) with heq | ⟨r, hr, p, hp, heq⟩
    · rw [List.foldl_cons, heq]
      cases hpl : r0.placement with
      | none => left; unfold maxPosStep; rw [hpl]
      | some p =>
        rcases le_total (p + (r0.ma.length : Int)) acc with hle | hge
        · left
          simp only [maxPosStep, hpl]
          omega
        · right
          refine ⟨r0, List.mem_cons_self r0 rs, p, hpl, ?_⟩
          simp only [maxPosStep, hpl]
          omega
    · right
      exact ⟨r, List.mem_cons_of_mem r0 hr, p, hp, by rw [List.foldl_cons]; exact heq⟩

/-- Unplaced reads are fold no-ops: filtering them away changes nothing. -/
theorem maxPosStep_foldl_filter (reads : List Read) :
    ∀ acc : Int,
      (reads.filter (fun r => r.placement.isSome)).foldl maxPosStep acc =
        reads.foldl maxPosStep acc := by
  induction reads with
  | nil => intro acc; rfl
  | cons r0 rs ih =>
    intro acc
    cases hpl : r0.placement with
    | none =>
      have hstep : maxPosStep acc r0 = acc := by unfold maxPosStep; rw [hpl]
      have hfil : (r0 :: rs).filter (fun r => r.placement.isSome) =
          rs.filter (fun r => r.placement.isSome) := by
        simp [List.filter_cons, hpl]
      rw [hfil, List.foldl_cons, hstep]
      exact ih acc
    | some p =>
      have hfil : (r0 :: rs).filter (fun r => r.placement.isSome) =
          r0 :: rs.filter (fun r => r.placement.isSome) := by
        simp [List.filter_cons, hpl]
      rw [hfil, List.foldl_cons, List.foldl_cons]
      exact ih (maxPosStep acc r0)

/-- C3, counterexample. The claim resolves an unbounded `max_pos` to "the
maximum position reachable by any placed read"; the code starts the
maximisation at 0, so a placed read whose reach is negative is ignored: on
the single read placed at -3 with one occurrence, the code resolves 0
while the claimed value is -2. -/
theorem c3_counterexample :
    resolve_max_pos none [⟨"r1", some (-3), ["A"]⟩] = 0 ∧
      claimed_max_reachable [⟨"r1", some (-3), ["A"]⟩] = some (-2) ∧
      (0 : Int) ≠ -2 := by
  refine ⟨by decide, by decide, by decide⟩

/-- C3, amended. When `max_pos` is left unbounded it is resolved from the
placement data to the maximum of 0 and the reaches `pos + len(ma)` of the
placed reads: the result is at least 0, at least every placed read's reach,
and is 0 or the reach of some placed read; unplaced reads do not contribute
(removing them changes nothing). -/
theorem c3_amended_max_pos_resolution (reads : List Read) :
    0 ≤ resolve_max_pos none reads ∧
    (∀ r ∈ reads, ∀ p : Int, r.placement = some p →
      p + (r.ma.length : Int) ≤ resolve_max_pos none reads) ∧
    (resolve_max_pos none reads = 0 ∨
      ∃ r ∈ reads, ∃ p : Int, r.placement = some p ∧
        resolve_max_pos none reads = p + (r.ma.length : Int)) ∧
    resolve_max_pos none (reads.filter (fun r => r.placement.isSome)) =
      resolve_max_pos none reads := by
  refine ⟨maxPosStep_foldl_le reads 0, ?_, maxPosStep_foldl_attained reads 0, ?_⟩
  · intro r hr p hp
    exact maxPosStep_foldl_ub reads 0 r hr p hp
  · exact maxPosStep_foldl_filter reads 0

/-- C3, witness: with the placed read "a" of reach 5 and the unplaced read
"b", the resolved bound is at least 5, equals some placed read's reach, and
ignores "b". -/
theorem c3_amended_max_pos_resolution_witness :
    0 ≤ resolve_max_pos none [⟨"a", some 2, ["A", "C", "G"]⟩, ⟨"b", none, ["T"]⟩] ∧
    (∀ r ∈ [(⟨"a", some 2, ["A", "C", "G"]⟩ : Read), ⟨"b", none, ["T"]⟩],
      ∀ p : Int, r.placement = some p →
        p + (r.ma.length : Int) ≤
          resolve_max_pos none [⟨"a", some 2, ["A", "C", "G"]⟩, ⟨"b", none, ["T"]⟩]) ∧
    (resolve_max_pos none [⟨"a", some 2, ["A", "C", "G"]⟩, ⟨"b", none, ["T"]⟩] = 0 ∨
      ∃ r ∈ [(⟨"a", some 2, ["A", "C", "G"]⟩ : Read), ⟨"b", none, ["T"]⟩],
        ∃ p : Int, r.placement = some p ∧
          resolve_max_pos none [⟨"a", some 2, ["A", "C", "G"]⟩, ⟨"b", none, ["T"]⟩] =
            p + (r.ma.length : Int)) ∧
    resolve_max_pos none
        (([(⟨"a", some 2, ["A", "C", "G"]⟩ : Read), ⟨"b", none, ["T"]⟩]).filter
          (fun r => r.placement.isSome)) =
      resolve_max_pos none [⟨"a", some 2, ["A", "C", "G"]⟩, ⟨"b", none, ["T"]⟩] :=
  c3_amended_max_pos_resolution [⟨"a", some 2, ["A", "C", "G"]⟩, ⟨"b", none, ["T"]⟩]

/-- Dict assignment never empties an association list. -/
theorem dictInsert_ne_nil (d : List (String × String)) (k v : String) :
    dictInsert d k v ≠ [] := by
  unfold dictInsert
  by_cases h : d.any (fun e => e.1 = k)
  · rw [if_pos h]
    intro hnil
    rw [List.map_eq_nil_iff] at hnil
    subst hnil
    simp at h
  · rw [if_neg h]
    simp

/-- Folding dict assignments over a non-empty pool yields a non-empty dict. -/
theorem buildSeqs_ne_nil (mas : String → List String) (pos : Int)
    (pool : List (String × Nat)) (hne : pool ≠ []) :
    buildSeqs mas pos pool ≠ [] := by
  have key : ∀ (l : List (String × Nat)) (d : List (String × String)), d ≠ [] →
      l.foldl (fun d rp =>
        dictInsert d (mkKey pos rp.1 rp.2) (cleanSeq ((mas rp.1).getD rp.2 ""))) d ≠ [] := by
    intro l
    induction l with
    | nil => intro d hd; exact hd
    | cons e es ih =>
      intro d hd
      exact ih _ (dictInsert_ne_nil _ _ _)
  rcases pool with _ | ⟨e, es⟩
  · exact absurd rfl hne
  · exact key es _ (dictInsert_ne_nil _ _ _)

/-- High median of a non-empty list of lengths is one of the lengths. -/
theorem medianHigh_mem (l : List Nat) (h : l ≠ []) : medianHigh l ∈ l := by
  unfold medianHigh
  have hperm := List.perm_insertionSort (fun a b : Nat => a ≤ b) l
  have hpos : 0 < l.length := List.length_pos.mpr h
  have hidx : l.length / 2 < (l.insertionSort (fun a b : Nat => a ≤ b)).length := by
    rw [hperm.length_eq]
    exact Nat.div_lt_self hpos (by norm_num)
  rw [List.getD_eq_getElem _ _ hidx]
  exact hperm.mem_iff.mp (List.getElem_mem hidx)

/-- Decomposition of a successful linear scan: the list splits at the found
element and everything before it fails the predicate. -/
theorem find?_eq_some_split {α : Type} (p : α → Bool) :
    ∀ (l : List α) (a : α), l.find? p = some a →
      ∃ l₁ l₂, l = l₁ ++ a :: l₂ ∧ ∀ x ∈ l₁, p x = false := by
  intro l
  induction l with
  | nil => intro a h; cases h
  | cons b bs ih =>
    intro a h
    by_cases hb : p b = true
    · rw [List.find?_cons_of_pos _ hb] at h
      cases h
      exact ⟨[], bs, rfl, by simp⟩
    · rw [List.find?_cons_of_neg _ hb] at h
      obtain ⟨l₁, l₂, rfl, hl₁⟩ := ih a h
      refine ⟨b :: l₁, l₂, rfl, ?_⟩
      intro x hx
      rcases List.mem_cons.mp hx with rfl | hx'
      · simpa using hb
      · exact hl₁ x hx'

/-- Scan success on a non-empty pool, shared backbone of the pool-builder
results: the high median of the candidate lengths is one of the lengths, so
some sorted-key candidate matches it and `find?` succeeds. -/
theorem export_read_units_pos_isSome (mas : String → List String) (pos : Int)
    (pool : List (String × Nat)) (hne : pool ≠ []) :
    (export_read_units_pos mas pos pool).isSome = true := by
  have hs : buildSeqs mas pos pool ≠ [] := buildSeqs_ne_nil mas pos pool hne
  have hlens : (buildSeqs mas pos pool).map (fun x => x.2.length) ≠ [] := by
    rw [Ne, List.map_eq_nil_iff]
    exact hs
  have hmem := medianHigh_mem _ hlens
  obtain ⟨e, he, helen⟩ := List.mem_map.mp hmem
  have hsorted : e ∈ sortByKey (buildSeqs mas pos pool) :=
    ((List.perm_insertionSort _ _).mem_iff).mpr he
  unfold export_read_units_pos
  rw [List.find?_isSome]
  exact ⟨e, hsorted, by simp [helen]⟩

/-- C9. The representative scan of `export_read_units` always succeeds on a
non-empty pool: the high median of the candidate lengths is itself one of
the candidate lengths, so the first sorted-key candidate of that length
exists, and the Python assertions after the scan (the internal consistency
check on `template_read`) are unreachable. -/
theorem c9_median_scan_total (mas : String → List String) (pos : Int)
    (pool : List (String × Nat)) (hne : pool ≠ []) :
    medianHigh ((buildSeqs mas pos pool).map (fun x => x.2.length)) ∈
        (buildSeqs mas pos pool).map (fun x => x.2.length) ∧
      (export_read_units_pos mas pos pool).isSome = true := by
  have hs : buildSeqs mas pos pool ≠ [] := buildSeqs_ne_nil mas pos pool hne
  have hlens : (buildSeqs mas pos pool).map (fun x => x.2.length) ≠ [] := by
    rw [Ne, List.map_eq_nil_iff]
    exact hs
  exact ⟨medianHigh_mem _ hlens, export_read_units_pos_isSome mas pos pool hne⟩

/-- C9, witness: a pool of three candidates of lengths 4, 5, 6. -/
theorem c9_median_scan_total_witness :
    medianHigh ((buildSeqs
          (fun rid => if rid = "r1" then ["ACGT"] else
            if rid = "r2" then ["ACGTA"] else ["ACGTAC"])
          3 [("r1", 0), ("r2", 0), ("r3", 0)]).map (fun x => x.2.length)) ∈
        ((buildSeqs
          (fun rid => if rid = "r1" then ["ACGT"] else
            if rid = "r2" then ["ACGTA"] else ["ACGTAC"])
          3 [("r1", 0), ("r2", 0), ("r3", 0)]).map (fun x => x.2.length)) ∧
      (export_read_units_pos
          (fun rid => if rid = "r1" then ["ACGT"] else
            if rid = "r2" then ["ACGTA"] else ["ACGTAC"])
          3 [("r1", 0), ("r2", 0), ("r3", 0)]).isSome = true :=
  c9_median_scan_total
    (fun rid => if rid = "r1" then ["ACGT"] else
      if rid = "r2" then ["ACGTA"] else ["ACGTAC"])
    3 [("r1", 0), ("r2", 0), ("r3", 0)] (by decide)

/-- C1. On a non-empty pool exactly one representative is selected: the
scan returns `some kv`, the representative's cleaned length equals the high
median of the candidate lengths, and `kv` is the first candidate in
sorted-key order with that length (everything before it in the sorted
candidate list has a different length). -/
theorem c1_representative_selection (mas : String → List String) (pos : Int)
    (pool : List (String × Nat)) (hne : pool ≠ []) :
    ∃ kv l₁ l₂,
      export_read_units_pos mas pos pool = some kv ∧
      kv.2.length = medianHigh ((buildSeqs mas pos pool).map (fun x => x.2.length)) ∧
      sortByKey (buildSeqs mas pos pool) = l₁ ++ kv :: l₂ ∧
      ∀ x ∈ l₁,
        x.2.length ≠ medianHigh ((buildSeqs mas pos pool).map (fun x => x.2.length)) := by
  have hsome := export_read_units_pos_isSome mas pos pool hne
  obtain ⟨kv, hkv⟩ := Option.isSome_iff_exists.mp hsome
  have hfind : (sortByKey (buildSeqs mas pos pool)).find?
      (fun e => e.2.length =
        medianHigh ((buildSeqs mas pos pool).map (fun x => x.2.length))) = some kv := hkv
  obtain ⟨l₁, l₂, hsplit, hbefore⟩ := find?_eq_some_split _ _ _ hfind
  refine ⟨kv, l₁, l₂, hkv, ?_, hsplit, ?_⟩
  · have := List.find?_some hfind
    simpa using this
  · intro x hx
    have := hbefore x hx
    exact of_decide_eq_false this

/-- C1, witness: the spec scenario, the pool with candidates r1 "AACGT",
r2 "ACGTT", r3 "ACCGT" (lengths 5, 5, 5) at position 7. The scan selects
r1's sequence, the first candidate in sorted-key order with the high-median
length 5. -/
theorem c1_representative_selection_witness :
    (∃ kv l₁ l₂,
      export_read_units_pos
          (fun rid => if rid = "r1" then ["AACGT"] else
            if rid = "r2" then ["ACGTT"] else ["ACCGT"])
          7 [("r1", 0), ("r2", 0), ("r3", 0)] = some kv ∧
      kv.2.length = medianHigh ((buildSeqs
          (fun rid => if rid = "r1" then ["AACGT"] else
            if rid = "r2" then ["ACGTT"] else ["ACCGT"])
          7 [("r1", 0), ("r2", 0), ("r3", 0)]).map (fun x => x.2.length)) ∧
      sortByKey (buildSeqs
          (fun rid => if rid = "r1" then ["AACGT"] else
            if rid = "r2" then ["ACGTT"] else ["ACCGT"])
          7 [("r1", 0), ("r2", 0), ("r3", 0)]) = l₁ ++ kv :: l₂ ∧
      ∀ x ∈ l₁,
        x.2.length ≠ medianHigh ((buildSeqs
            (fun rid => if rid = "r1" then ["AACGT"] else
              if rid = "r2" then ["ACGTT"] else ["ACCGT"])
            7 [("r1", 0), ("r2", 0), ("r3", 0)]).map (fun x => x.2.length))) ∧
    export_read_units_pos
        (fun rid => if rid = "r1" then ["AACGT"] else
          if rid = "r2" then ["ACGTT"] else ["ACCGT"])
        7 [("r1", 0), ("r2", 0), ("r3", 0)] =
      some ("gen_pos=7|r_id=r1|r_pos=0", "AACGT") := by
  constructor
  · exact c1_representative_selection
      (fun rid => if rid = "r1" then ["AACGT"] else
        if rid = "r2" then ["ACGTT"] else ["ACCGT"])
      7 [("r1", 0), ("r2", 0), ("r3", 0)] (by decide)
  · decide

/-- Loading one iteration's artifacts succeeds when every pooled position
has its file, and the dict afterwards holds exactly those artifacts. -/
theorem fillPolished_ok (art : Artifacts) (i : Nat) :
    ∀ (keys : List Int) (d : Int → Option String),
      (∀ p ∈ keys, (art p i).isSome = true) →
      fillPolished art i keys d =
        Except.ok (fun q => if q ∈ keys then art q i else d q) := by
  intro keys
  induction keys with
  | nil =>
    intro d h
    rfl
  | cons p ps ih =>
    intro d h
    obtain ⟨s, hs⟩ := Option.isSome_iff_exists.mp (h p (List.mem_cons_self p ps))
    simp only [fillPolished, hs]
    rw [ih _ (fun q hq => h q (List.mem_cons_of_mem p hq))]
    congr 1
    funext q
    by_cases hqps : q ∈ ps
    · simp [hqps, List.mem_cons]
    · by_cases hqp : q = p
      · subst hqp
        simp [hqps, hs]
      · simp [hqps, hqp, List.mem_cons]

/-- The per-position lookup comprehension succeeds when every position of
the range is in the dict, returning the artifacts in range order. -/
theorem gatherSeqs_ok (d : Int → Option String) :
    ∀ ps : List Int, (∀ p ∈ ps, (d p).isSome = true) →
      gatherSeqs d ps = Except.ok (ps.map (fun p => (d p).getD "")) := by
  intro ps
  induction ps with
  | nil => intro h; rfl
  | cons p ps ih =>
    intro h
    obtain ⟨s, hs⟩ := Option.isSome_iff_exists.mp (h p (List.mem_cons_self p ps))
    simp only [gatherSeqs, hs]
    rw [ih (fun q hq => h q (List.mem_cons_of_mem p hq))]
    simp [Except.map, hs]

/-- The iteration loop of `read_polishing` on the happy path: with every
range position pooled and every artifact present, each iteration yields the
join of its artifacts over the range, in range order. -/
theorem read_polishing_go_ok (art : Artifacts) (keys rangePs : List Int)
    (hcov : ∀ q ∈ rangePs, q ∈ keys) :
    ∀ (iters : List Nat) (d : Int → Option String),
      (∀ p ∈ keys, ∀ i ∈ iters, (art p i).isSome = true) →
      read_polishing_go art keys rangePs iters d =
        Except.ok (iters.map (fun i =>
          (i, String.join (rangePs.map (fun q => (art q i).getD ""))))) := by
  intro iters
  induction iters with
  | nil => intro d h; rfl
  | cons i iters ih =>
    intro d h
    have hart1 : ∀ p ∈ keys, (art p i).isSome = true :=
      fun p hp => h p hp i (List.mem_cons_self i iters)
    have hd' : ∀ q ∈ rangePs,
        ((fun q' => if q' ∈ keys then art q' i else d q') q).isSome = true := by
      intro q hq
      simp only [if_pos (hcov q hq)]
      exact hart1 q (hcov q hq)
    have hmaps : rangePs.map
          (fun q' => ((fun q'' => if q'' ∈ keys then art q'' i else d q'') q').getD "") =
        rangePs.map (fun q' => (art q' i).getD "") := by
      apply List.map_congr_left
      intro q hq
      simp [if_pos (hcov q hq)]
    simp only [read_polishing_go, fillPolished_ok art i keys d hart1,
      gatherSeqs_ok _ rangePs hd',
      ih _ (fun p hp j hj => h p hp j (List.mem_cons_of_mem i hj))]
    simp only [Except.map, List.map_cons]
    rw [hmaps]

/-- First-occurrence linear scan on the iteration map. -/
theorem find?_self_mem {l : List Nat} {i : Nat} (h : i ∈ l) :
    l.find? (fun j => j = i) = some i := by
  induction l with
  | nil => cases h
  | cons a l ih =>
    by_cases ha : a = i
    · subst ha
      exact List.find?_cons_of_pos _ (by simp)
    · rw [List.find?_cons_of_neg _ (by simpa using ha)]
      rcases List.mem_cons.mp h with rfl | hl
      · exact absurd rfl ha
      · exact ih hl

/-- Looking an iteration number up in the per-iteration map it indexes. -/
theorem lookupIter_map_range' (g : Nat → String) (s n i : Nat)
    (hi : i ∈ List.range' s n) :
    lookupIter ((List.range' s n).map (fun j => (j, g j))) i = some (g i) := by
  unfold lookupIter
  rw [List.find?_map]
  have hcomp : ((fun (e : Nat × String) => decide (e.1 = i)) ∘ (fun j => (j, g j))) =
      fun j => decide (j = i) := rfl
  rw [hcomp, find?_self_mem hi]
  rfl

/-- Export of an iteration-indexed map of final sequences: one raw and one
homopolymer-compressed record per iteration, in iteration order. -/
theorem export_results_map_range' (g : Nat → String) (numIters : Nat) :
    export_results ((List.range' 1 numIters).map (fun j => (j, g j))) numIters =
      ((List.range' 1 numIters).map (fun i =>
        [("final_sequence_" ++ toString i ++ ".fasta",
          "polished_repeat_" ++ toString i, g i),
         ("final_sequence_hpc_" ++ toString i ++ ".fasta",
          "polished_repeat_" ++ toString i, compress_homopolymer (g i))])).flatten := by
  unfold export_results
  congr 1
  apply List.map_congr_left
  intro i hi
  rw [lookupIter_map_range' g 1 numIters i hi]
  rfl

/-- C6. On the happy path (every position of the closed range
`[min_pos, max_pos]` is pooled and has an iteration-`i` artifact, where
`min_pos` and `max_pos` are the assembler's bounds, the minimum and maximum
pooled positions), each iteration's full-locus sequence is exactly the
concatenation of the per-position iteration-`i` artifacts in ascending
position order over every position of the closed range -- no truncation, no
reordering -- and the exporter writes exactly that string (and its
homopolymer-compressed form) for iteration `i`. -/
theorem c6_assembly_roundtrip (keys : List Int) (art : Artifacts) (numIters : Nat)
    (minPos maxPos : Int) (hmin : listMin keys = minPos) (hmax : listMax keys = maxPos)
    (hcov : ∀ q ∈ intRange minPos maxPos, q ∈ keys)
    (hart : ∀ p ∈ keys, ∀ i ∈ List.range' 1 numIters, (art p i).isSome = true) :
    read_polishing keys art numIters =
      Except.ok ((List.range' 1 numIters).map (fun i =>
        (i, String.join ((intRange minPos maxPos).map (fun q => (art q i).getD ""))))) ∧
    export_results
        ((List.range' 1 numIters).map (fun i =>
          (i, String.join ((intRange minPos maxPos).map (fun q => (art q i).getD "")))))
        numIters =
      ((List.range' 1 numIters).map (fun i =>
        [("final_sequence_" ++ toString i ++ ".fasta",
          "polished_repeat_" ++ toString i,
          String.join ((intRange minPos maxPos).map (fun q => (art q i).getD ""))),
         ("final_sequence_hpc_" ++ toString i ++ ".fasta",
          "polished_repeat_" ++ toString i,
          compress_homopolymer
            (String.join ((intRange minPos maxPos).map
              (fun q => (art q i).getD ""))))])).flatten := by
  subst hmin hmax
  constructor
  · unfold read_polishing
    exact read_polishing_go_ok art keys _ hcov (List.range' 1 numIters) _ hart
  · exact export_results_map_range'
      (fun i => String.join ((intRange (listMin keys) (listMax keys)).map
        (fun q => (art q i).getD ""))) numIters

/-- C6, witness: four pooled positions 0..3, two iterations, every artifact
present; both full-locus sequences are the 4-unit concatenations and the
exporter writes them unchanged. -/
theorem c6_assembly_roundtrip_witness :
    read_polishing [0, 1, 2, 3] (fun _ _ => some "A") 2 =
        Except.ok [(1, "AAAA"), (2, "AAAA")] ∧
      export_results [(1, "AAAA"), (2, "AAAA")] 2 =
        [("final_sequence_1.fasta", "polished_repeat_1", "AAAA"),
         ("final_sequence_hpc_1.fasta", "polished_repeat_1", "A"),
         ("final_sequence_2.fasta", "polished_repeat_2", "AAAA"),
         ("final_sequence_hpc_2.fasta", "polished_repeat_2", "A")] := by
  have h := c6_assembly_roundtrip [0, 1, 2, 3] (fun _ _ => some "A") 2 0 3
    (by decide) (by decide) (by decide) (by decide)
  constructor
  · rw [h.1]
    exact congrArg Except.ok (by decide)
  · decide

/-- Ascending order of the assembly range. -/
theorem intRange_pairwise (a b : Int) : (intRange a b).Pairwise (fun x y => x < y) := by
  unfold intRange
  rw [List.pairwise_map]
  refine (List.pairwise_lt_range (b + 1 - a).toNat).imp ?_
  intro x y hxy
  omega

/-- The lookup comprehension fails at the first missing position: if `q` is
listed, has no entry, and every smaller listed position has one, the raised
error identifies `q`. -/
theorem gatherSeqs_error_first (d : Int → Option String) :
    ∀ (ps : List Int) (q : Int), q ∈ ps → d q = none →
      (∀ p ∈ ps, p < q → (d p).isSome = true) →
      ps.Pairwise (fun x y => x < y) →
      gatherSeqs d ps = Except.error q := by
  intro ps
  induction ps with
  | nil => intro q hq _ _ _; cases hq
  | cons p ps ih =>
    intro q hq hdq hbefore hpw
    rcases List.mem_cons.mp hq with rfl | hqtail
    · simp only [gatherSeqs, hdq]
    · have hpq : p < q := (List.pairwise_cons.mp hpw).1 q hqtail
      obtain ⟨s, hs⟩ :=
        Option.isSome_iff_exists.mp (hbefore p (List.mem_cons_self p ps) hpq)
      simp only [gatherSeqs, hs]
      rw [ih q hqtail hdq
        (fun p' hp' hlt => hbefore p' (List.mem_cons_of_mem p hp') hlt)
        (List.pairwise_cons.mp hpw).2]
      rfl

/-- C7. If a position `q` of the assembler's closed range has no pooled
artifact (for example a position inside the range with zero contributing
reads) while every smaller range position is pooled and every pooled
position's iteration-1 file exists, the assembler fails identifying
iteration 1 and position `q`, and no full-locus sequence is produced for
any iteration. -/
theorem c7_missing_artifact_error (keys : List Int) (art : Artifacts)
    (numIters : Nat) (q : Int) (hne : keys ≠ []) (hiters : 1 ≤ numIters)
    (hq : q ∈ intRange (listMin keys) (listMax keys)) (hqk : q ∉ keys)
    (hfirst : ∀ p ∈ intRange (listMin keys) (listMax keys), p < q → p ∈ keys)
    (hart : ∀ p ∈ keys, (art p 1).isSome = true) :
    read_polishing keys art numIters = Except.error (1, q) := by
  obtain ⟨n, rfl⟩ : ∃ n, numIters = n + 1 := ⟨numIters - 1, by omega⟩
  unfold read_polishing
  rw [List.range'_succ]
  have hgather : gatherSeqs (fun q' => if q' ∈ keys then art q' 1 else none)
      (intRange (listMin keys) (listMax keys)) = Except.error q := by
    apply gatherSeqs_error_first _ _ q hq (by rw [if_neg hqk]) ?_ (intRange_pairwise _ _)
    intro p hp hlt
    rw [if_pos (hfirst p hp hlt)]
    exact hart p (hfirst p hp hlt)
  simp only [read_polishing_go, fillPolished_ok art 1 keys _ hart, hgather]

/-- C7, witness: the claim's scenario, pooled positions 0, 1, 3 with all
files present and position 2 unpooled inside the range; the assembler fails
for iteration 1 at position 2. -/
theorem c7_missing_artifact_error_witness :
    read_polishing [0, 1, 3] (fun _ _ => some "A") 1 = Except.error (1, 2) :=
  c7_missing_artifact_error [0, 1, 3] (fun _ _ => some "A") 1 2
    (by decide) (by decide) (by decide) (by decide) (by decide) (by decide)

/-- C8. The convergence reporter emits exactly one comparison per
consecutive iteration pair: the report has `num_iters - 1` entries, and the
0-based `j`-th entry compares iterations `j + 1` and `j + 2`, holding one
alignment of the raw full-locus sequences and one of their
homopolymer-compressed forms, in iteration order. The reporter is a pure
function of the final sequences: it alters neither them nor the control
flow (`run` passes the same `final_sequences` on to the exporter). -/
theorem c8_convergence_report {α : Type} (al : String → String → α)
    (fs : List (Nat × String)) (numIters : Nat) :
    (compare_polished_sequences al fs numIters).length = numIters - 1 ∧
    ∀ j : Nat, j < numIters - 1 →
      (compare_polished_sequences al fs numIters)[j]? =
        some (j + 1,
          al ((lookupIter fs (j + 1)).getD "") ((lookupIter fs (j + 2)).getD ""),
          al (compress_homopolymer ((lookupIter fs (j + 1)).getD ""))
            (compress_homopolymer ((lookupIter fs (j + 2)).getD ""))) := by
  constructor
  · simp [compare_polished_sequences]
  · intro j hj
    unfold compare_polished_sequences
    rw [List.getElem?_map, List.getElem?_range' 1 1 hj]
    have h1 : 1 + 1 * j = j + 1 := by omega
    rw [h1]
    rfl

/-- C8, witness: the spec scenario count, `num_iters = 2` gives exactly one
comparison, iteration 1 against iteration 2, raw and compressed. -/
theorem c8_convergence_report_witness :
    (compare_polished_sequences (fun a b => (a, b)) [(1, "AAB"), (2, "CD")] 2).length
        = 1 ∧
      (compare_polished_sequences (fun a b => (a, b)) [(1, "AAB"), (2, "CD")] 2)[0]? =
        some (1, ("AAB", "CD"), ("AB", "CD")) := by
  have h := c8_convergence_report (fun a b => (a, b)) [(1, "AAB"), (2, "CD")] 2
  refine ⟨h.1, ?_⟩
  rw [h.2 0 (by decide)]
  decide

end EltrPolisher
